import Mathlib

/-!
Verification of the danger/golang diff-parsing and input-validation core
(src/danger-js/types_danger.go) against its natural-language specification.

Strings are modelled as lists of unicode scalar values (Go iterates runes for
the control-character scan and all other checks involve only ASCII, where Go's
byte-level operations and rune-level operations agree).  Machine integers are
modelled as Int with the strconv.Atoi 64-bit overflow bound made explicit.
The external git subprocess is modelled as an abstract runner argument.
-/

namespace DangerGolang

/-- Shell metacharacters denylist, from the shellMetaChars variable. -/
def shellMetaChars : List Char :=
  [';', '|', '&', '$', '\x60', '(', ')', '\x7b', '\x7d', '[', ']', '*', '?',
   '<', '>', '\x27', '\x22']

/-- Whitespace characters rejected in paths and git refs, from whitespaceChars. -/
def whitespaceChars : List Char := [' ', '\t', '\n', '\r']

/-- Boolean test that the pattern list is an initial run of the second list,
modelling strings.HasPrefix. -/
def listStarts : List Char → List Char → Bool
  | [], _ => true
  | _ :: _, [] => false
  | p :: ps, c :: cs => p = c && listStarts ps cs

/-- Boolean substring test, modelling strings.Contains (all patterns used by the
source are ASCII, so byte-level and rune-level containment coincide). -/
def listHas (pat : List Char) : List Char → Bool
  | [] => pat.isEmpty
  | c :: cs => listStarts pat (c :: cs) || listHas pat cs

/-- Test that some character of the first list occurs in the second list;
models the loops that call strings.Contains on each one-character string. -/
def hasCharIn (chars : List Char) (s : List Char) : Bool :=
  chars.any fun c => s.contains c

/-- Backtracking step of Go's path.Clean buffer when a parent-directory segment
is consumed: the buffer (held in reverse) is popped one character at a time
until the separator ending the previous segment is removed or the protected
region of length dd is reached. -/
def popLoop (dd : Nat) : List Char → List Char
  | [] => []
  | c :: rest => if c ≠ '/' ∧ rest.length > dd then popLoop dd rest else rest

/-- Scan states of the Clean loop: at a segment boundary, inside a segment
being copied (the inner copying loop of the Go source), or having consumed
one or two dots at a segment boundary whose meaning is not yet decided
(Go instead inspects path positions r+1 and r+2 without consuming). -/
inductive CleanMode where
  | boundary
  | inSeg
  | afterDot
  | afterTwoDots
  deriving DecidableEq

/-- Separator insertion before a new segment is copied into the buffer,
from the default case of the Go Clean loop. -/
def pushSep (rooted : Bool) (rout : List Char) : List Char :=
  if (rooted ∧ rout.length ≠ 1) ∨ (¬rooted ∧ rout.length ≠ 0) then '/' :: rout
  else rout

/-- Effect of one parent-directory segment on the buffer and the protected
length, from the dot-dot case of the Go Clean loop: backtrack when the buffer
extends past the protected region, otherwise (only when not rooted) emit a
literal dot-dot segment and protect it. -/
def dotdotStep (rooted : Bool) (dd : Nat) (rout : List Char) : List Char × Nat :=
  if rout.length > dd then (popLoop dd rout, dd)
  else if !rooted then
    (if rout.length > 0 then ('.' :: '.' :: '/' :: rout, rout.length + 3)
     else ('.' :: '.' :: rout, rout.length + 2))
  else (rout, dd)

/-- Main scan of Go's filepath.Clean for a unix separator, transcribed from
path.Clean.  rout is the output buffer in reverse and dd the length of its
protected region; one input character is consumed per step. -/
def cleanCore (rooted : Bool) (dd : Nat) (rout : List Char) :
    CleanMode → List Char → List Char
  | .afterTwoDots, [] => (dotdotStep rooted dd rout).1
  | _, [] => rout
  | .boundary, c :: rest =>
    if c = '/' then cleanCore rooted dd rout .boundary rest
    else if c = '.' then cleanCore rooted dd rout .afterDot rest
    else cleanCore rooted dd (c :: pushSep rooted rout) .inSeg rest
  | .inSeg, c :: rest =>
    if c = '/' then cleanCore rooted dd rout .boundary rest
    else cleanCore rooted dd (c :: rout) .inSeg rest
  | .afterDot, c :: rest =>
    if c = '/' then cleanCore rooted dd rout .boundary rest
    else if c = '.' then cleanCore rooted dd rout .afterTwoDots rest
    else cleanCore rooted dd (c :: '.' :: pushSep rooted rout) .inSeg rest
  | .afterTwoDots, c :: rest =>
    if c = '/' then
      cleanCore rooted (dotdotStep rooted dd rout).2 (dotdotStep rooted dd rout).1
        .boundary rest
    else cleanCore rooted dd (c :: '.' :: '.' :: pushSep rooted rout) .inSeg rest

/-- Go's filepath.Clean on a unix platform (where it agrees with path.Clean):
empty input becomes the current directory, a rooted path keeps its leading
separator, and an empty output buffer also becomes the current directory. -/
def goFilepathClean (path : List Char) : List Char :=
  match path with
  | [] => ['.']
  | c :: rest =>
    if c = '/' then
      (if (cleanCore true 1 ['/'] .boundary rest).length = 0 then ['.']
       else (cleanCore true 1 ['/'] .boundary rest).reverse)
    else
      (if (cleanCore false 0 [] .boundary (c :: rest)).length = 0 then ['.']
       else (cleanCore false 0 [] .boundary (c :: rest)).reverse)

/-- Transcription of validateFilePath: rejects the empty path, a cleaned form
containing the two-dot pattern, an absolute cleaned form, and any occurrence
of a shell metacharacter or whitespace character in the original path. -/
def validateFilePath (path : List Char) : Bool :=
  if path.isEmpty then false
  else if listHas ['.', '.'] (goFilepathClean path) then false
  else if (goFilepathClean path).head? = some '/' then false
  else if hasCharIn shellMetaChars path then false
  else if hasCharIn whitespaceChars path then false
  else true

/-- Transcription of validateGitRef: rejects the empty ref, shell
metacharacters, whitespace, the two-dot pattern, leading or trailing or
doubled separators, and ASCII control characters. -/
def validateGitRef (ref : List Char) : Bool :=
  if ref.isEmpty then false
  else if hasCharIn shellMetaChars ref then false
  else if hasCharIn whitespaceChars ref then false
  else if listHas ['.', '.'] ref then false
  else if ref.head? = some '/' || ref.getLast? = some '/' || listHas ['/', '/'] ref then false
  else if ref.any (fun r => r.toNat < 32 || r.toNat = 127) then false
  else true

/-- Character class of the regex escape for whitespace in Go (ASCII only). -/
def isGoSpace (c : Char) : Bool :=
  c = ' ' || c = '\t' || c = '\n' || c = '\x0c' || c = '\r'

/-- Character class of the regex escape for a decimal digit in Go. -/
def isDigit09 (c : Char) : Bool := 48 ≤ c.toNat && c.toNat ≤ 57

/-- Consume one mandatory whitespace character then any further whitespace,
the plus-quantified whitespace class of the hunk header regex. -/
def skipWs1 : List Char → Option (List Char)
  | c :: rest => if isGoSpace c then some (rest.dropWhile isGoSpace) else none
  | [] => none

/-- Consume one mandatory digit then any further digits, returning the digit
run and the remainder; the plus-quantified capture groups of the hunk regex. -/
def scanNum : List Char → Option (List Char × List Char)
  | c :: rest =>
    if isDigit09 c then some (c :: rest.takeWhile isDigit09, rest.dropWhile isDigit09)
    else none
  | [] => none

/-- Consume the optional comma-count group of the hunk header regex.  A comma
must be followed by at least one digit or the whole match fails: the regex
alternative of skipping the group would then require whitespace at the comma,
which cannot succeed, so the behavior is deterministic. -/
def skipOptComma (s : List Char) : Option (List Char) :=
  match s with
  | ',' :: rest => (scanNum rest).map (fun p => p.2)
  | _ => some s

/-- Consume one expected literal character. -/
def expectCh (c : Char) : List Char → Option (List Char)
  | d :: rest => if d = c then some rest else none
  | [] => none

/-- Anchored match of the hunk header regex, returning the two captured digit
runs (the removed-side and added-side start positions); the optional count
captures are discarded as in the source.  The pattern is anchored at the
start of the line and the trailing remainder is unconstrained. -/
def hunkHeaderMatch (line : List Char) : Option (List Char × List Char) :=
  (expectCh '@' line).bind fun s1 =>
  (expectCh '@' s1).bind fun s2 =>
  (skipWs1 s2).bind fun s3 =>
  (expectCh '-' s3).bind fun s4 =>
  (scanNum s4).bind fun p1 =>
  (skipOptComma p1.2).bind fun s5 =>
  (skipWs1 s5).bind fun s6 =>
  (expectCh '+' s6).bind fun s7 =>
  (scanNum s7).bind fun p2 =>
  (skipOptComma p2.2).bind fun s8 =>
  (skipWs1 s8).bind fun s9 =>
  (expectCh '@' s9).bind fun s10 =>
  (expectCh '@' s10).map fun _ => (p1.1, p2.1)

/-- Numeric value of a digit run. -/
def digitsToNat (s : List Char) : Nat :=
  s.foldl (fun a c => a * 10 + (c.toNat - 48)) 0

/-- Model of strconv.Atoi on the strings the hunk regex captures can produce
(nonempty runs of ASCII digits): the numeric value when it fits a 64-bit
signed integer, and failure on overflow, as Go's ParseInt reports ErrRange
exactly when the decimal value exceeds the 64-bit bound. -/
def goAtoi (s : List Char) : Option Int :=
  if s ≠ [] ∧ s.all isDigit09 then
    (if digitsToNat s ≤ 9223372036854775807 then some (Int.ofNat (digitsToNat s))
     else none)
  else none

/-- Transcription of parseHunkHeader: regex match, then integer conversion of
the first and third capture, any failure collapsing to a non-match triple. -/
def parseHunkHeader (line : List Char) : Int × Int × Bool :=
  match hunkHeaderMatch line with
  | none => (0, 0, false)
  | some (d1, d3) =>
    match goAtoi d1 with
    | none => (0, 0, false)
    | some r =>
      match goAtoi d3 with
      | none => (0, 0, false)
      | some a => (r, a, true)

/-- Transcription of parseAddedLine: the added-line regex matches a line
starting with a plus that is not followed by a second plus; the capture is
everything after the marker (the dot of the regex stops at a line feed,
which cannot occur in a split line). -/
def parseAddedLine (line : List Char) : List Char × Bool :=
  match line with
  | '+' :: rest =>
    (match rest with
     | [] => ([], true)
     | c :: rest2 =>
       if c = '+' then ([], false)
       else (c :: rest2.takeWhile (fun d => d ≠ '\n'), true))
  | _ => ([], false)

/-- Transcription of parseRemovedLine, symmetric to parseAddedLine. -/
def parseRemovedLine (line : List Char) : List Char × Bool :=
  match line with
  | '-' :: rest =>
    (match rest with
     | [] => ([], true)
     | c :: rest2 =>
       if c = '-' then ([], false)
       else (c :: rest2.takeWhile (fun d => d ≠ '\n'), true))
  | _ => ([], false)

/-- Split on line feeds, modelling strings.Split with a one-character
separator: n separators yield n plus one pieces. -/
def splitLines : List Char → List (List Char)
  | [] => [[]]
  | '\n' :: rest => [] :: splitLines rest
  | c :: rest =>
    match splitLines rest with
    | [] => [[c]]
    | l :: ls => (c :: l) :: ls

/-- A single line of a file diff, from the DiffLine struct. -/
structure DiffLine where
  Content : List Char
  Line : Int
  deriving DecidableEq

/-- The changes in a file, from the FileDiff struct; the zero value has both
slices empty. -/
structure FileDiff where
  AddedLines : List DiffLine := []
  RemovedLines : List DiffLine := []
  deriving DecidableEq

/-- Loop body of parseDiffContent over the split lines, carrying the two
line counters (initialized to minus one by the caller) and the accumulated
FileDiff; classification order is hunk header, then added, then removed. -/
def parseDiffLoop : List (List Char) → Int → Int → FileDiff → FileDiff
  | [], _, _, fd => fd
  | line :: rest, curRem, curAdd, fd =>
    if (parseHunkHeader line).2.2 then
      parseDiffLoop rest (parseHunkHeader line).1 (parseHunkHeader line).2.1 fd
    else if (parseAddedLine line).2 then
      (if curAdd ≥ 0 then
        parseDiffLoop rest curRem (curAdd + 1)
          { fd with AddedLines := fd.AddedLines ++ [⟨(parseAddedLine line).1, curAdd⟩] }
      else parseDiffLoop rest curRem curAdd fd)
    else if (parseRemovedLine line).2 then
      (if curRem ≥ 0 then
        parseDiffLoop rest (curRem + 1) curAdd
          { fd with RemovedLines := fd.RemovedLines ++ [⟨(parseRemovedLine line).1, curRem⟩] }
      else parseDiffLoop rest curRem curAdd fd)
    else parseDiffLoop rest curRem curAdd fd

/-- Transcription of parseDiffContent: split the raw diff text on line feeds
and run the classification loop with both counters at minus one. -/
def parseDiffContent (diffContent : List Char) : FileDiff :=
  parseDiffLoop (splitLines diffContent) (-1) (-1) {}

/-- Error outcomes of the diff invoker: a validation failure carrying the
formatted message, or a propagated subprocess failure. -/
inductive GitError where
  | invalidArg (msg : List Char)
  | execFailed
  deriving DecidableEq

/-- Abstract model of the git subprocess: base ref, head ref and file path in
the order they appear on the command line, yielding captured stdout or a
failure; the invoker is proved to behave uniformly in this argument. -/
def GitRunner := List Char → List Char → List Char → Except Unit (List Char)

/-- Message of the invalid file path error, from the fmt.Errorf format. -/
def invalidPathMsg (p : List Char) : List Char := "invalid file path: ".toList ++ p

/-- Message of the invalid base ref error, from the fmt.Errorf format. -/
def invalidBaseRefMsg (r : List Char) : List Char := "invalid base ref: ".toList ++ r

/-- Message of the invalid head ref error, from the fmt.Errorf format. -/
def invalidHeadRefMsg (r : List Char) : List Char := "invalid head ref: ".toList ++ r

/-- Transcription of DiffForFileWithRefs: validate the path, then the base
ref, then the head ref, failing fast with the corresponding message; only
then consult the subprocess and parse its output. -/
def DiffForFileWithRefs (run : GitRunner) (filePath baseRef headRef : List Char) :
    Except GitError FileDiff :=
  if validateFilePath filePath = false then
    .error (.invalidArg (invalidPathMsg filePath))
  else if validateGitRef baseRef = false then
    .error (.invalidArg (invalidBaseRefMsg baseRef))
  else if validateGitRef headRef = false then
    .error (.invalidArg (invalidHeadRefMsg headRef))
  else
    match run baseRef headRef filePath with
    | .error _ => .error .execFailed
    | .ok out => .ok (parseDiffContent out)

/-- Transcription of DiffForFile: delegate with the default references. -/
def DiffForFile (run : GitRunner) (filePath : List Char) : Except GitError FileDiff :=
  DiffForFileWithRefs run filePath "HEAD^".toList "HEAD".toList

/-- A concrete runner used in witnesses: always succeeds with empty output. -/
def trivialRunner : GitRunner := fun _ _ _ => .ok []

/-- A concrete runner used in witnesses: always fails. -/
def failingRunner : GitRunner := fun _ _ _ => .error ()

/-- Contents of the lines the loop classifies as added within a run of lines
containing no hunk header, in encounter order and with the classification
priority of the loop. -/
def classifyAdds (lines : List (List Char)) : List (List Char) :=
  lines.filterMap fun l =>
    if (parseHunkHeader l).2.2 then none
    else if (parseAddedLine l).2 then some (parseAddedLine l).1
    else none

/-- Contents of the lines the loop classifies as removed within a run of
lines containing no hunk header. -/
def classifyRems (lines : List (List Char)) : List (List Char) :=
  lines.filterMap fun l =>
    if (parseHunkHeader l).2.2 then none
    else if (parseAddedLine l).2 then none
    else if (parseRemovedLine l).2 then some (parseRemovedLine l).1
    else none

/-- Consecutive numbering of recorded contents from a start value. -/
def numberFrom (n : Int) : List (List Char) → List DiffLine
  | [] => []
  | c :: cs => ⟨c, n⟩ :: numberFrom (n + 1) cs

/-- Split on separators, used to state the specification's reading of a
path as a sequence of components. -/
def splitSlashes : List Char → List (List Char)
  | [] => [[]]
  | '/' :: rest => [] :: splitSlashes rest
  | c :: rest =>
    match splitSlashes rest with
    | [] => [[c]]
    | l :: ls => (c :: l) :: ls

/-- Interpretation of the specification phrase for the acceptance side of the
path validator: the lexically-cleaned form contains a parent-directory
segment as a whole path component.  This follows the claim wording and is
compared against the source's substring test. -/
def hasDotdotComponent (s : List Char) : Bool :=
  (splitSlashes s).any fun seg => seg = ['.', '.']

example : goFilepathClean "a/b/../c".toList = "a/c".toList := by decide
example : goFilepathClean "".toList = ".".toList := by decide
example : goFilepathClean "./x".toList = "x".toList := by decide
example : goFilepathClean "/../a".toList = "/a".toList := by decide
example : goFilepathClean "a/..".toList = ".".toList := by decide
example : goFilepathClean "../..".toList = "../..".toList := by decide
example : goFilepathClean "a//b".toList = "a/b".toList := by decide
example : goFilepathClean "a/b/../../../c".toList = "../c".toList := by decide
example : validateFilePath "src/main.go".toList = true := by decide
example : validateFilePath "../../etc/passwd".toList = false := by decide
example : validateFilePath "a/b/../c".toList = true := by decide
example : validateFilePath "a..b".toList = false := by decide
example : validateGitRef "feature/new-thing".toList = true := by decide
example : validateGitRef "main/".toList = false := by decide
example : validateGitRef "HEAD^".toList = true := by decide

example : parseHunkHeader "@@ -1 +1 @@".toList = (1, 1, true) := by decide
example : parseHunkHeader "@@ -10,5 +10,6 @@".toList = (10, 10, true) := by decide
example : parseHunkHeader "@@ invalid @@".toList = (0, 0, false) := by decide
example : parseHunkHeader "@@ -1,0 +1,3 @@".toList = (1, 1, true) := by decide
example : parseHunkHeader "@@ -1, +1 @@".toList = (0, 0, false) := by decide
example :
    parseHunkHeader "@@ -99999999999999999999 +1 @@".toList = (0, 0, false) := by
  decide
example : parseAddedLine "+\x7d,".toList = ("\x7d,".toList, true) := by decide
example : parseAddedLine "+++ b/test.go".toList = ([], false) := by decide
example : parseAddedLine "+".toList = ([], true) := by decide
example : parseRemovedLine "--- a/test.go".toList = ([], false) := by decide
example : parseRemovedLine "- ".toList = (" ".toList, true) := by decide

example :
    parseDiffContent (String.toList
      "--- a/test.go\n+++ b/test.go\n@@ -1 +1 @@\n-func old() \x7b\n+func new() \x7b\n@@ -5 +5,2 @@\n+\tadded\n-\tremoved") =
    { AddedLines := [⟨"func new() \x7b".toList, 1⟩, ⟨"\tadded".toList, 5⟩],
      RemovedLines := [⟨"func old() \x7b".toList, 1⟩, ⟨"\tremoved".toList, 5⟩] } := by
  decide

example :
    parseDiffContent "@@ invalid @@\n+foo\n-bar".toList = { } := by decide

example : parseDiffContent "".toList = { } := by decide

example :
    parseDiffContent "@@ -1,0 +1,3 @@\n+package main\n+\n+func main() \x7b\x7d".toList =
    { AddedLines := [⟨"package main".toList, 1⟩, ⟨[], 2⟩,
        ⟨"func main() \x7b\x7d".toList, 3⟩],
      RemovedLines := [] } := by decide

theorem validateFilePath_false_of_meta (path : List Char)
    (h : hasCharIn shellMetaChars path = true) : validateFilePath path = false := by
  simp [validateFilePath, h]

theorem validateFilePath_false_of_ws (path : List Char)
    (h : hasCharIn whitespaceChars path = true) : validateFilePath path = false := by
  simp [validateFilePath, h]

theorem validateFilePath_false_of_dotdot (path : List Char)
    (h : listHas ['.', '.'] (goFilepathClean path) = true) :
    validateFilePath path = false := by
  simp [validateFilePath, h]

theorem validateGitRef_false_of_meta (ref : List Char)
    (h : hasCharIn shellMetaChars ref = true) : validateGitRef ref = false := by
  simp [validateGitRef, h]

theorem validateGitRef_false_of_ws (ref : List Char)
    (h : hasCharIn whitespaceChars ref = true) : validateGitRef ref = false := by
  simp [validateGitRef, h]

theorem validateGitRef_false_of_dotdot (ref : List Char)
    (h : listHas ['.', '.'] ref = true) : validateGitRef ref = false := by
  simp [validateGitRef, h]

/-- C1 counterexample: the claim states that every string containing the
two-dot substring is rejected by both validators, but validateFilePath checks
the substring only on the lexically-cleaned path, so a path whose inner
parent-directory segment cleans away is accepted. -/
theorem c1_counterexample :
    listHas ['.', '.'] "a/b/../c".toList = true ∧
    validateFilePath "a/b/../c".toList = true := by
  constructor <;> decide

/-- C1 (amended): every string whose lexically-cleaned form contains the
two-dot substring is rejected by validateFilePath, and every string
containing the two-dot substring is rejected by validateGitRef. -/
theorem c1_dotdot_rejection (s : List Char) :
    (listHas ['.', '.'] (goFilepathClean s) = true → validateFilePath s = false) ∧
    (listHas ['.', '.'] s = true → validateGitRef s = false) :=
  ⟨validateFilePath_false_of_dotdot s, validateGitRef_false_of_dotdot s⟩

/-- C1 witness: a concrete traversal string rejected by both validators via
the amended theorem. -/
theorem c1_witness :
    validateFilePath "../x".toList = false ∧ validateGitRef "../x".toList = false :=
  ⟨(c1_dotdot_rejection "../x".toList).1 (by decide),
   (c1_dotdot_rejection "../x".toList).2 (by decide)⟩

/-- C2: every string containing a denylisted shell metacharacter or a
whitespace character is rejected by both validators. -/
theorem c2_meta_ws_rejection (s : List Char)
    (h : hasCharIn (shellMetaChars ++ whitespaceChars) s = true) :
    validateFilePath s = false ∧ validateGitRef s = false := by
  have h' : hasCharIn shellMetaChars s = true ∨ hasCharIn whitespaceChars s = true := by
    simpa [hasCharIn, List.any_append, Bool.or_eq_true] using h
  rcases h' with h' | h'
  · exact ⟨validateFilePath_false_of_meta s h', validateGitRef_false_of_meta s h'⟩
  · exact ⟨validateFilePath_false_of_ws s h', validateGitRef_false_of_ws s h'⟩

/-- C2 witness: a concrete semicolon string is rejected by both validators. -/
theorem c2_witness :
    validateFilePath [';'] = false ∧ validateGitRef [';'] = false :=
  c2_meta_ws_rejection [';'] (by decide)

/-- C3: an invalid path, base ref or head ref makes DiffForFileWithRefs fail
with the error naming that argument, with a result independent of the
subprocess runner (so no subprocess output is consulted), and a rejected
input never produces a successful FileDiff. -/
theorem c3_fail_fast (run run2 : GitRunner) (p bref href : List Char) :
    (validateFilePath p = false →
      DiffForFileWithRefs run p bref href = .error (.invalidArg (invalidPathMsg p)) ∧
      DiffForFileWithRefs run p bref href = DiffForFileWithRefs run2 p bref href) ∧
    (validateFilePath p = true → validateGitRef bref = false →
      DiffForFileWithRefs run p bref href = .error (.invalidArg (invalidBaseRefMsg bref)) ∧
      DiffForFileWithRefs run p bref href = DiffForFileWithRefs run2 p bref href) ∧
    (validateFilePath p = true → validateGitRef bref = true → validateGitRef href = false →
      DiffForFileWithRefs run p bref href = .error (.invalidArg (invalidHeadRefMsg href)) ∧
      DiffForFileWithRefs run p bref href = DiffForFileWithRefs run2 p bref href) ∧
    ((validateFilePath p = false ∨ validateGitRef bref = false ∨
        validateGitRef href = false) →
      ∀ fd, DiffForFileWithRefs run p bref href ≠ .ok fd) := by
  refine ⟨?_, ?_, ?_, ?_⟩
  · intro h1
    simp [DiffForFileWithRefs, h1]
  · intro h1 h2
    simp [DiffForFileWithRefs, h1, h2]
  · intro h1 h2 h3
    simp [DiffForFileWithRefs, h1, h2, h3]
  · rintro (h1 | h1 | h1) fd
    · simp [DiffForFileWithRefs, h1]
    · by_cases hp : validateFilePath p = false <;> simp [DiffForFileWithRefs, hp, h1]
    · by_cases hp : validateFilePath p = false
      · simp [DiffForFileWithRefs, hp]
      · by_cases hb : validateGitRef bref = false <;>
          simp [DiffForFileWithRefs, hp, hb, h1]

/-- C3 witness: a concrete dangerous path is rejected with the path error. -/
theorem c3_witness :
    DiffForFileWithRefs trivialRunner "a;b".toList "HEAD^".toList "HEAD".toList =
      .error (.invalidArg (invalidPathMsg "a;b".toList)) :=
  ((c3_fail_fast trivialRunner failingRunner "a;b".toList "HEAD^".toList
    "HEAD".toList).1 (by decide)).1

/-- C8 counterexample: the claim states the error does not echo the raw
shell-dangerous input, but the formatted message appends the raw value, so
the semicolon path appears verbatim inside the error message. -/
theorem c8_counterexample :
    DiffForFileWithRefs trivialRunner [';'] "HEAD^".toList "HEAD".toList =
      .error (.invalidArg "invalid file path: ;".toList) ∧
    listHas [';'] "invalid file path: ;".toList = true := by
  constructor
  · rfl
  · decide

/-- C8 (amended): a rejected argument produces an error whose message names
the offending value's role and appends the raw input value itself. -/
theorem c8_role_named_with_echo (run : GitRunner) (p bref href : List Char) :
    (validateFilePath p = false →
      DiffForFileWithRefs run p bref href =
        .error (.invalidArg ("invalid file path: ".toList ++ p))) ∧
    (validateFilePath p = true → validateGitRef bref = false →
      DiffForFileWithRefs run p bref href =
        .error (.invalidArg ("invalid base ref: ".toList ++ bref))) ∧
    (validateFilePath p = true → validateGitRef bref = true →
      validateGitRef href = false →
      DiffForFileWithRefs run p bref href =
        .error (.invalidArg ("invalid head ref: ".toList ++ href))) := by
  refine ⟨?_, ?_, ?_⟩
  · intro h1
    simp [DiffForFileWithRefs, invalidPathMsg, h1]
  · intro h1 h2
    simp [DiffForFileWithRefs, invalidBaseRefMsg, h1, h2]
  · intro h1 h2 h3
    simp [DiffForFileWithRefs, invalidHeadRefMsg, h1, h2, h3]

/-- C8 witness: a concrete rejected base ref yields the base ref message with
the raw value appended. -/
theorem c8_witness :
    DiffForFileWithRefs trivialRunner "a.go".toList "ba..se".toList "HEAD".toList =
      .error (.invalidArg ("invalid base ref: ".toList ++ "ba..se".toList)) :=
  ((c8_role_named_with_echo trivialRunner "a.go".toList "ba..se".toList
    "HEAD".toList).2.1 (by decide) (by decide))

/-- C10: DiffForFile delegates to DiffForFileWithRefs with the default
references, both defaults pass validateGitRef, and every outcome of
DiffForFile is a success, an invalid-path error, or a subprocess error —
never an invalid-ref error. -/
theorem c10_default_refs (run : GitRunner) (p : List Char) :
    DiffForFile run p = DiffForFileWithRefs run p "HEAD^".toList "HEAD".toList ∧
    validateGitRef "HEAD^".toList = true ∧ validateGitRef "HEAD".toList = true ∧
    ((∃ fd, DiffForFile run p = .ok fd) ∨
      DiffForFile run p = .error (.invalidArg (invalidPathMsg p)) ∨
      DiffForFile run p = .error .execFailed) := by
  refine ⟨rfl, by decide, by decide, ?_⟩
  unfold DiffForFile DiffForFileWithRefs
  by_cases hp : validateFilePath p = false
  · rw [if_pos hp]
    exact Or.inr (Or.inl rfl)
  · rw [if_neg hp, if_neg (by decide : ¬validateGitRef "HEAD^".toList = false),
      if_neg (by decide : ¬validateGitRef "HEAD".toList = false)]
    cases hrun : run "HEAD^".toList "HEAD".toList p with
    | error e => exact Or.inr (Or.inr rfl)
    | ok out => exact Or.inl ⟨parseDiffContent out, rfl⟩

/-- C6: a line is classified as added exactly when it starts with a plus not
followed by a second plus, symmetrically for removed lines with a minus, and
a bare marker line is classified with empty content. -/
theorem c6_marker_classification (line : List Char) :
    ((parseAddedLine line).2 = true ↔
      line.head? = some '+' ∧ line.tail.head? ≠ some '+') ∧
    ((parseRemovedLine line).2 = true ↔
      line.head? = some '-' ∧ line.tail.head? ≠ some '-') ∧
    parseAddedLine ['+'] = ([], true) ∧ parseRemovedLine ['-'] = ([], true) := by
  refine ⟨?_, ?_, by decide, by decide⟩
  · match line with
    | [] => simp [parseAddedLine]
    | [c] => by_cases hc : c = '+' <;> simp [parseAddedLine, hc]
    | c :: d :: rest =>
      by_cases hc : c = '+'
      · subst hc
        by_cases hd : d = '+' <;> simp [parseAddedLine, hd]
      · simp [parseAddedLine, hc]
  · match line with
    | [] => simp [parseRemovedLine]
    | [c] => by_cases hc : c = '-' <;> simp [parseRemovedLine, hc]
    | c :: d :: rest =>
      by_cases hc : c = '-'
      · subst hc
        by_cases hd : d = '-' <;> simp [parseRemovedLine, hd]
      · simp [parseRemovedLine, hc]

/-- C7: parseHunkHeader is total and fail-closed: a regex non-match yields
the non-matching triple, a match whose numeric start fields fail 64-bit
integer conversion yields the non-matching triple, and a match whose fields
convert yields the two parsed start positions with a positive flag. -/
theorem c7_hunk_header_total (line : List Char) :
    (hunkHeaderMatch line = none → parseHunkHeader line = (0, 0, false)) ∧
    (∀ d1 d3, hunkHeaderMatch line = some (d1, d3) →
      ((goAtoi d1 = none ∨ goAtoi d3 = none) → parseHunkHeader line = (0, 0, false)) ∧
      (∀ r a, goAtoi d1 = some r → goAtoi d3 = some a →
        parseHunkHeader line = (r, a, true))) := by
  constructor
  · intro h
    simp [parseHunkHeader, h]
  · intro d1 d3 h
    constructor
    · rintro (h2 | h2)
      · simp [parseHunkHeader, h, h2]
      · cases hg : goAtoi d1 <;> simp [parseHunkHeader, h, hg, h2]
    · intro r a h1 h2
      simp [parseHunkHeader, h, h1, h2]

/-- C7 witness: a header whose start value exceeds the 64-bit signed bound is
treated as a non-match. -/
theorem c7_witness :
    parseHunkHeader "@@ -99999999999999999999 +1 @@".toList = (0, 0, false) :=
  ((c7_hunk_header_total "@@ -99999999999999999999 +1 @@".toList).2
    "99999999999999999999".toList "1".toList (by decide)).1 (Or.inl (by decide))

theorem parseDiffLoop_skip_unset (pre : List (List Char)) :
    ∀ (rest : List (List Char)) (curRem curAdd : Int) (fd : FileDiff),
      curRem < 0 → curAdd < 0 →
      pre.all (fun l => !(parseHunkHeader l).2.2) = true →
      parseDiffLoop (pre ++ rest) curRem curAdd fd =
        parseDiffLoop rest curRem curAdd fd := by
  induction pre with
  | nil => intro rest curRem curAdd fd _ _ _; rfl
  | cons line ls ih =>
    intro rest curRem curAdd fd hR hA h
    rw [List.all_cons, Bool.and_eq_true] at h
    obtain ⟨h1, h2⟩ := h
    rw [Bool.not_eq_true'] at h1
    rw [List.cons_append]
    simp only [parseDiffLoop, h1, Bool.false_eq_true, if_false]
    by_cases ha : (parseAddedLine line).2 = true
    · simp only [ha, if_true, if_neg (by omega : ¬ curAdd ≥ 0)]
      exact ih rest curRem curAdd fd hR hA h2
    · rw [Bool.not_eq_true] at ha
      simp only [ha, Bool.false_eq_true, if_false]
      by_cases hr : (parseRemovedLine line).2 = true
      · simp only [hr, if_true, if_neg (by omega : ¬ curRem ≥ 0)]
        exact ih rest curRem curAdd fd hR hA h2
      · rw [Bool.not_eq_true] at hr
        simp only [hr, Bool.false_eq_true, if_false]
        exact ih rest curRem curAdd fd hR hA h2

/-- C4: diff text in which no line is a recognized hunk header parses to a
FileDiff with both sequences empty, and more generally a header-free run of
lines processed with unset counters records nothing. -/
theorem c4_no_header_no_attribution (diffContent : List Char)
    (pre rest : List (List Char)) (fd : FileDiff) :
    ((splitLines diffContent).all (fun l => !(parseHunkHeader l).2.2) = true →
      parseDiffContent diffContent = { AddedLines := [], RemovedLines := [] }) ∧
    (pre.all (fun l => !(parseHunkHeader l).2.2) = true →
      parseDiffLoop (pre ++ rest) (-1) (-1) fd = parseDiffLoop rest (-1) (-1) fd) := by
  constructor
  · intro h
    unfold parseDiffContent
    rw [show splitLines diffContent = splitLines diffContent ++ [] from
      (List.append_nil _).symm]
    rw [parseDiffLoop_skip_unset (splitLines diffContent) [] (-1) (-1) {}
      (by decide) (by decide) h]
    rfl
  · exact parseDiffLoop_skip_unset pre rest (-1) (-1) fd (by decide) (by decide)

/-- C4 witness: marked lines with no preceding hunk header are dropped. -/
theorem c4_witness :
    parseDiffContent "+foo\n-bar".toList = { AddedLines := [], RemovedLines := [] } :=
  (c4_no_header_no_attribution "+foo\n-bar".toList [] [] {}).1 (by decide)

theorem goAtoi_nonneg (s : List Char) (x : Int) (h : goAtoi s = some x) : 0 ≤ x := by
  unfold goAtoi at h
  split at h
  · split at h
    · injection h with h'
      rw [← h']
      exact Int.ofNat_zero_le _
    · cases h
  · cases h

theorem parseHunkHeader_nonneg (line : List Char) :
    0 ≤ (parseHunkHeader line).1 ∧ 0 ≤ (parseHunkHeader line).2.1 := by
  unfold parseHunkHeader
  rcases hm : hunkHeaderMatch line with - | ⟨d1, d3⟩ <;> simp only [hm]
  · simp
  · rcases hx : goAtoi d1 with - | x <;> simp only [hx]
    · simp
    · rcases hy : goAtoi d3 with - | y <;> simp only [hy]
      · simp
      · exact ⟨goAtoi_nonneg d1 x hx, goAtoi_nonneg d3 y hy⟩

theorem parseDiffLoop_hunk_run (hunkLines : List (List Char)) :
    ∀ (rest : List (List Char)) (r a : Int) (fd : FileDiff),
      0 ≤ r → 0 ≤ a →
      hunkLines.all (fun l => !(parseHunkHeader l).2.2) = true →
      parseDiffLoop (hunkLines ++ rest) r a fd =
        parseDiffLoop rest (r + (classifyRems hunkLines).length)
          (a + (classifyAdds hunkLines).length)
          { AddedLines := fd.AddedLines ++ numberFrom a (classifyAdds hunkLines),
            RemovedLines := fd.RemovedLines ++ numberFrom r (classifyRems hunkLines) } := by
  induction hunkLines with
  | nil =>
    intro rest r a fd _ _ _
    simp [classifyAdds, classifyRems, numberFrom]
  | cons line ls ih =>
    intro rest r a fd hr ha hall
    rw [List.all_cons, Bool.and_eq_true] at hall
    obtain ⟨h1, h2⟩ := hall
    rw [Bool.not_eq_true'] at h1
    rw [List.cons_append]
    simp only [parseDiffLoop, h1, Bool.false_eq_true, if_false]
    by_cases hadd : (parseAddedLine line).2 = true
    · have hA : classifyAdds (line :: ls) =
          (parseAddedLine line).1 :: classifyAdds ls := by
        simp [classifyAdds, h1, hadd]
      have hR : classifyRems (line :: ls) = classifyRems ls := by
        simp [classifyRems, h1, hadd]
      simp only [hadd, if_true, if_pos (by omega : a ≥ 0)]
      rw [ih rest r (a + 1) _ hr (by omega) h2, hA, hR]
      have e2 : a + ((((parseAddedLine line).1 :: classifyAdds ls)).length : Int) =
          a + 1 + ((classifyAdds ls).length : Int) := by
        simp only [List.length_cons]
        push_cast
        omega
      rw [e2]
      have e3 : fd.AddedLines ++
            numberFrom a ((parseAddedLine line).1 :: classifyAdds ls) =
          (fd.AddedLines ++ [⟨(parseAddedLine line).1, a⟩]) ++
            numberFrom (a + 1) (classifyAdds ls) := by
        simp [numberFrom]
      rw [e3]
    · rw [Bool.not_eq_true] at hadd
      have hA : classifyAdds (line :: ls) = classifyAdds ls := by
        simp [classifyAdds, h1, hadd]
      simp only [hadd, Bool.false_eq_true, if_false]
      by_cases hrem : (parseRemovedLine line).2 = true
      · have hR : classifyRems (line :: ls) =
            (parseRemovedLine line).1 :: classifyRems ls := by
          simp [classifyRems, h1, hadd, hrem]
        simp only [hrem, if_true, if_pos (by omega : r ≥ 0)]
        rw [ih rest (r + 1) a _ (by omega) ha h2, hA, hR]
        have e2 : r + ((((parseRemovedLine line).1 :: classifyRems ls)).length : Int) =
            r + 1 + ((classifyRems ls).length : Int) := by
          simp only [List.length_cons]
          push_cast
          omega
        rw [e2]
        have e3 : fd.RemovedLines ++
              numberFrom r ((parseRemovedLine line).1 :: classifyRems ls) =
            (fd.RemovedLines ++ [⟨(parseRemovedLine line).1, r⟩]) ++
              numberFrom (r + 1) (classifyRems ls) := by
          simp [numberFrom]
        rw [e3]
      · rw [Bool.not_eq_true] at hrem
        have hR : classifyRems (line :: ls) = classifyRems ls := by
          simp [classifyRems, h1, hadd, hrem]
        simp only [hrem, Bool.false_eq_true, if_false]
        rw [ih rest r a fd hr ha h2, hA, hR]

/-- C5: a recognized hunk header resets both counters to its declared start
values regardless of the incoming state, and over the header-free run of
lines that follows, the recorded added lines are numbered consecutively from
the added-start value and the recorded removed lines independently from the
removed-start value, one increment per classified line, with the final
counters advanced by exactly the number of lines recorded on each side. -/
theorem c5_hunk_counters (header : List Char) (hunkLines rest : List (List Char))
    (cr ca r a : Int) (fd : FileDiff)
    (hh : parseHunkHeader header = (r, a, true))
    (hn : hunkLines.all (fun l => !(parseHunkHeader l).2.2) = true) :
    parseDiffLoop (header :: (hunkLines ++ rest)) cr ca fd =
      parseDiffLoop rest (r + (classifyRems hunkLines).length)
        (a + (classifyAdds hunkLines).length)
        { AddedLines := fd.AddedLines ++ numberFrom a (classifyAdds hunkLines),
          RemovedLines := fd.RemovedLines ++ numberFrom r (classifyRems hunkLines) } := by
  have hnn := parseHunkHeader_nonneg header
  rw [hh] at hnn
  simp only [parseDiffLoop, hh, if_true]
  exact parseDiffLoop_hunk_run hunkLines rest r a fd hnn.1 hnn.2 hn

/-- C5 witness: one hunk starting at removed line 3 and added line 7, with
two added and one removed line, numbered 7, 8 and 3 from unset counters. -/
theorem c5_witness :
    parseDiffLoop ("@@ -3 +7 @@".toList ::
        (["+x".toList, "+y".toList, "-z".toList] ++ [])) (-1) (-1) {} =
      { AddedLines := [⟨"x".toList, 7⟩, ⟨"y".toList, 8⟩],
        RemovedLines := [⟨"z".toList, 3⟩] } := by
  rw [c5_hunk_counters "@@ -3 +7 @@".toList ["+x".toList, "+y".toList, "-z".toList]
    [] (-1) (-1) 3 7 {} (by decide) (by decide)]
  decide

theorem popLoop_suffix (dd : Nat) (l : List Char) : (popLoop dd l).IsSuffix l := by
  induction l with
  | nil => exact List.suffix_rfl
  | cons c rest ih =>
    rw [popLoop]
    split
    · exact ih.trans (List.suffix_cons c rest)
    · exact List.suffix_cons c rest

theorem popLoop_length (dd : Nat) (l : List Char) (h : dd < l.length) :
    dd ≤ (popLoop dd l).length := by
  induction l with
  | nil => simp at h
  | cons c rest ih =>
    rw [popLoop]
    split
    · rename_i hc
      exact ih hc.2
    · simp only [List.length_cons] at h
      omega

theorem getLast?_cons_of_ne (c : Char) (l : List Char) (h : l ≠ []) :
    (c :: l).getLast? = l.getLast? :=
  List.getLast?_append_of_ne_nil [c] h

theorem getLast?_of_suffix (l₁ l₂ : List Char) (h : l₁.IsSuffix l₂) (hne : l₁ ≠ []) :
    l₂.getLast? = l₁.getLast? := by
  obtain ⟨t, rfl⟩ := h
  exact List.getLast?_append_of_ne_nil t hne

theorem pushSep_length (b : Bool) (rout : List Char) :
    rout.length ≤ (pushSep b rout).length := by
  unfold pushSep
  split <;> simp

theorem pushSep_ne_nil (b : Bool) (rout : List Char) (h : rout ≠ []) :
    pushSep b rout ≠ [] := by
  unfold pushSep
  split
  · simp
  · exact h

theorem pushSep_getLast (b : Bool) (rout : List Char) (h : rout ≠ []) :
    (pushSep b rout).getLast? = rout.getLast? := by
  unfold pushSep
  split
  · exact getLast?_cons_of_ne '/' rout h
  · rfl

theorem dotdotStep_rooted (dd : Nat) (rout : List Char) (h1 : 1 ≤ dd)
    (h2 : dd ≤ rout.length) (h3 : rout.getLast? = some '/') :
    (dotdotStep true dd rout).2 = dd ∧ dd ≤ (dotdotStep true dd rout).1.length ∧
      (dotdotStep true dd rout).1.getLast? = some '/' := by
  unfold dotdotStep
  by_cases hlen : rout.length > dd
  · rw [if_pos hlen]
    have hle := popLoop_length dd rout hlen
    have hne : popLoop dd rout ≠ [] := by
      intro hc
      rw [hc] at hle
      simp at hle
      omega
    refine ⟨rfl, hle, ?_⟩
    rw [← getLast?_of_suffix _ _ (popLoop_suffix dd rout) hne]
    exact h3
  · rw [if_neg hlen]
    rw [if_neg (by simp : ¬ (!true) = true)]
    exact ⟨rfl, h2, h3⟩

theorem dotdotStep_unrooted (dd : Nat) (rout : List Char)
    (h : rout.getLast? ≠ some '/') :
    (dotdotStep false dd rout).1.getLast? ≠ some '/' := by
  unfold dotdotStep
  by_cases hlen : rout.length > dd
  · rw [if_pos hlen]
    by_cases hne : popLoop dd rout = []
    · rw [hne]
      simp
    · rw [← getLast?_of_suffix _ _ (popLoop_suffix dd rout) hne]
      exact h
  · rw [if_neg hlen]
    rw [if_pos (show (!false) = true from rfl)]
    by_cases hr : rout = []
    · subst hr
      rw [if_neg (by simp)]
      decide
    · rw [if_pos (show rout.length > 0 from List.length_pos.mpr hr)]
      have e : (('.' :: '.' :: '/' :: rout, rout.length + 3) : List Char × Nat).1.getLast? =
          rout.getLast? := List.getLast?_append_of_ne_nil ['.', '.', '/'] hr
      rw [e]
      exact h

theorem cleanCore_rooted_inv (input : List Char) :
    ∀ (dd : Nat) (rout : List Char) (m : CleanMode),
      1 ≤ dd → dd ≤ rout.length → rout.getLast? = some '/' →
      1 ≤ (cleanCore true dd rout m input).length ∧
      (cleanCore true dd rout m input).getLast? = some '/' := by
  induction input with
  | nil =>
    intro dd rout m h1 h2 h3
    cases m
    case boundary => exact ⟨le_trans h1 h2, h3⟩
    case inSeg => exact ⟨le_trans h1 h2, h3⟩
    case afterDot => exact ⟨le_trans h1 h2, h3⟩
    case afterTwoDots =>
      obtain ⟨-, e2, e3⟩ := dotdotStep_rooted dd rout h1 h2 h3
      exact ⟨le_trans h1 e2, e3⟩
  | cons c rest ih =>
    intro dd rout m h1 h2 h3
    have hrne : rout ≠ [] := by
      intro hc
      rw [hc] at h2
      simp at h2
      omega
    have hpush : ∀ xs : List Char, dd ≤ (xs ++ pushSep true rout).length ∧
        (xs ++ pushSep true rout).getLast? = some '/' := by
      intro xs
      constructor
      · have := pushSep_length true rout
        simp only [List.length_append]
        omega
      · rw [List.getLast?_append_of_ne_nil xs (pushSep_ne_nil true rout hrne),
          pushSep_getLast true rout hrne]
        exact h3
    cases m
    case boundary =>
      simp only [cleanCore]
      by_cases hc1 : c = '/'
      · rw [if_pos hc1]
        exact ih dd rout .boundary h1 h2 h3
      · rw [if_neg hc1]
        by_cases hc2 : c = '.'
        · rw [if_pos hc2]
          exact ih dd rout .afterDot h1 h2 h3
        · rw [if_neg hc2]
          exact ih dd _ .inSeg h1 (hpush [c]).1 (hpush [c]).2
    case inSeg =>
      simp only [cleanCore]
      by_cases hc1 : c = '/'
      · rw [if_pos hc1]
        exact ih dd rout .boundary h1 h2 h3
      · rw [if_neg hc1]
        refine ih dd _ .inSeg h1 ?_ ?_
        · simp only [List.length_cons]
          omega
        · rw [getLast?_cons_of_ne c rout hrne]
          exact h3
    case afterDot =>
      simp only [cleanCore]
      by_cases hc1 : c = '/'
      · rw [if_pos hc1]
        exact ih dd rout .boundary h1 h2 h3
      · rw [if_neg hc1]
        by_cases hc2 : c = '.'
        · rw [if_pos hc2]
          exact ih dd rout .afterTwoDots h1 h2 h3
        · rw [if_neg hc2]
          exact ih dd _ .inSeg h1 (hpush [c, '.']).1 (hpush [c, '.']).2
    case afterTwoDots =>
      simp only [cleanCore]
      by_cases hc1 : c = '/'
      · rw [if_pos hc1]
        obtain ⟨e1, e2, e3⟩ := dotdotStep_rooted dd rout h1 h2 h3
        rw [e1]
        exact ih dd _ .boundary h1 e2 e3
      · rw [if_neg hc1]
        exact ih dd _ .inSeg h1 (hpush [c, '.', '.']).1 (hpush [c, '.', '.']).2

theorem cleanCore_unrooted_inv (input : List Char) :
    ∀ (dd : Nat) (rout : List Char) (m : CleanMode),
      rout.getLast? ≠ some '/' →
      (cleanCore false dd rout m input).getLast? ≠ some '/' := by
  induction input with
  | nil =>
    intro dd rout m h
    cases m
    case boundary => exact h
    case inSeg => exact h
    case afterDot => exact h
    case afterTwoDots => exact dotdotStep_unrooted dd rout h
  | cons c rest ih =>
    intro dd rout m h
    have hpush : ∀ (xs : List Char) (d : Char), d ≠ '/' →
        (xs ++ d :: pushSep false rout).getLast? ≠ some '/' := by
      intro xs d hd
      by_cases hr : rout = []
      · subst hr
        rw [List.getLast?_append_of_ne_nil xs (by simp),
          show pushSep false ([] : List Char) = [] from by decide]
        simpa using hd
      · rw [List.getLast?_append_of_ne_nil xs (by simp),
          getLast?_cons_of_ne d _ (pushSep_ne_nil false rout hr),
          pushSep_getLast false rout hr]
        exact h
    cases m
    case boundary =>
      simp only [cleanCore]
      by_cases hc1 : c = '/'
      · rw [if_pos hc1]
        exact ih dd rout .boundary h
      · rw [if_neg hc1]
        by_cases hc2 : c = '.'
        · rw [if_pos hc2]
          exact ih dd rout .afterDot h
        · rw [if_neg hc2]
          exact ih dd _ .inSeg (hpush [] c hc1)
    case inSeg =>
      simp only [cleanCore]
      by_cases hc1 : c = '/'
      · rw [if_pos hc1]
        exact ih dd rout .boundary h
      · rw [if_neg hc1]
        refine ih dd _ .inSeg ?_
        by_cases hr : rout = []
        · subst hr
          simpa using hc1
        · rw [getLast?_cons_of_ne c rout hr]
          exact h
    case afterDot =>
      simp only [cleanCore]
      by_cases hc1 : c = '/'
      · rw [if_pos hc1]
        exact ih dd rout .boundary h
      · rw [if_neg hc1]
        by_cases hc2 : c = '.'
        · rw [if_pos hc2]
          exact ih dd rout .afterTwoDots h
        · rw [if_neg hc2]
          exact ih dd _ .inSeg (hpush [c] '.' (by decide))
    case afterTwoDots =>
      simp only [cleanCore]
      by_cases hc1 : c = '/'
      · rw [if_pos hc1]
        exact ih _ _ .boundary (dotdotStep_unrooted dd rout h)
      · rw [if_neg hc1]
        exact ih dd _ .inSeg (hpush [c, '.'] '.' (by decide))

theorem goFilepathClean_abs_iff (s : List Char) (hne : s ≠ []) :
    ((goFilepathClean s).head? = some '/' ↔ s.head? = some '/') := by
  match s with
  | [] => exact absurd rfl hne
  | c :: rest =>
    simp only [goFilepathClean]
    by_cases hc : c = '/'
    · rw [if_pos hc]
      obtain ⟨hl, hlast⟩ := cleanCore_rooted_inv rest 1 ['/'] .boundary
        (le_refl 1) (by simp) rfl
      rw [if_neg (by omega)]
      rw [List.head?_reverse, hlast]
      simp [hc]
    · rw [if_neg hc]
      have hlast := cleanCore_unrooted_inv (c :: rest) 0 [] .boundary (by simp)
      by_cases hlen : (cleanCore false 0 [] .boundary (c :: rest)).length = 0
      · rw [if_pos hlen]
        simp [hc]
      · rw [if_neg hlen]
        rw [List.head?_reverse]
        simp only [List.head?_cons]
        constructor
        · intro hcontra
          exact absurd hcontra hlast
        · intro hcontra
          exact absurd (Option.some.inj hcontra) hc

/-- C9 counterexample: the claim promises acceptance of every non-empty,
non-absolute path whose cleaned form has no parent-directory component and
which has no metacharacter or whitespace, but the source tests the two-dot
pattern as a substring of the cleaned form, so a file name merely containing
two adjacent dots is rejected although it satisfies all the claim's criteria. -/
theorem c9_counterexample :
    validateFilePath "a..b".toList = false ∧
    "a..b".toList ≠ [] ∧
    hasDotdotComponent (goFilepathClean "a..b".toList) = false ∧
    "a..b".toList.head? ≠ some '/' ∧
    hasCharIn shellMetaChars "a..b".toList = false ∧
    hasCharIn whitespaceChars "a..b".toList = false :=
  ⟨by decide, by decide, by decide, by decide, by decide, by decide⟩

/-- C9 (amended): validateFilePath accepts exactly the paths that are
non-empty, not absolute, whose lexically-cleaned form does not contain the
two-dot substring, and which contain no denylisted shell metacharacter and
no whitespace character; these are the only grounds for rejection. -/
theorem c9_accept_characterization (path : List Char) :
    validateFilePath path = true ↔
      (path ≠ [] ∧ listHas ['.', '.'] (goFilepathClean path) = false ∧
       path.head? ≠ some '/' ∧ hasCharIn shellMetaChars path = false ∧
       hasCharIn whitespaceChars path = false) := by
  by_cases hne : path = []
  · subst hne
    simp [validateFilePath]
  · have habs := goFilepathClean_abs_iff path hne
    unfold validateFilePath
    rw [if_neg (show ¬ path.isEmpty = true by simpa [List.isEmpty_iff] using hne)]
    by_cases h1 : listHas ['.', '.'] (goFilepathClean path) = true
    · simp [h1]
    · rw [Bool.not_eq_true] at h1
      rw [if_neg (by simp [h1])]
      by_cases h2 : path.head? = some '/'
      · rw [if_pos (habs.mpr h2)]
        simp [h2]
      · rw [if_neg (fun hc => h2 (habs.mp hc))]
        by_cases h3 : hasCharIn shellMetaChars path = true
        · simp [h3]
        · rw [Bool.not_eq_true] at h3
          rw [if_neg (by simp [h3])]
          by_cases h4 : hasCharIn whitespaceChars path = true
          · simp [h4]
          · rw [Bool.not_eq_true] at h4
            rw [if_neg (by simp [h4])]
            simp [hne, h1, h2, h3, h4]

end DangerGolang
